import Mathlib

/-!
Verification of the five pure text-analysis functions of `pythonAssessment.py`
(`count_specific_word`, `identify_most_common_word`, `calculate_average_word_length`,
`count_paragraphs`, `count_sentences`).

The embedding works over Lean `String`/`List Char` and models the ASCII fragment of
Python's string and regex primitives, which is the fragment the program's own
tokenizer is specified over (the source extracts `[a-zA-Z]` runs only):

* `str.lower`            ↦ `pyToLower` mapped over the characters (`A`-`Z` ↦ `a`-`z`);
* `\s` / `str.strip`     ↦ `pyIsSpace` (space, tab, newline, carriage return,
                            vertical tab, form feed — Python's ASCII whitespace);
* `\w` (for `\b`)        ↦ `isWordChar` (ASCII letter, digit or underscore);
* `re.findall(r'\b' + re.escape(w) + r'\b', t)`
                         ↦ `scanCount`, a left-to-right scan counting non-overlapping
                            literal matches whose ends sit on `\w`/non-`\w` transitions;
* `re.findall(r'\b[a-zA-Z]+\b', t)`
                         ↦ `pyWords`: the maximal `\w`-runs consisting of letters only
                            (a letter run adjacent to a digit or underscore has no
                            word boundary next to it, so the regex skips it);
* `re.split(r'[.!?]+(?=\s|$)', t)`  ↦ `splitSent` (`$` before a trailing newline is
                            subsumed by the `\s` branch of the lookahead);
* `re.split(r'\n\s*\n', t)` ↦ `splitPara` (greedy `\s*` backtracks to the last
                            newline of the whitespace run);
* `collections.Counter(ws).most_common(1)` ↦ max by count over the keys in first
  occurrence order, first key winning ties (CPython's `heapq.nlargest(1, …)`
  delegates to `max`, which keeps the earliest maximal item of the insertion-ordered
  dict).

All five functions in the source are total: every edge case is caught by an explicit
guard (`if not text…`), no operation can raise, and the embedding mirrors this by
being made of total Lean functions into plain result types (`Nat`, `Option String`,
`ℚ`). The float returned by `calculate_average_word_length` is modelled as an exact
rational; its value `total_length / len(words)` involves exactly one division.
-/

/-- Python ASCII whitespace: the characters removed by `str.strip` and matched by
`\s` (restricted to ASCII). -/
def pyIsSpace (c : Char) : Bool :=
  c = ' ' || c = '\t' || c = '\n' || c = '\r' || c = '\x0b' || c = '\x0c'

/-- A regex `\w` character (ASCII): letter, digit, or underscore. Word boundaries
`\b` sit exactly on transitions between `\w` and non-`\w` (or a string edge). -/
def isWordChar (c : Char) : Bool :=
  c.isAlpha || c.isDigit || c = '_'

/-- Sentence-terminating punctuation of `count_sentences`: `.`, `!`, `?`. -/
def isSentPunct (c : Char) : Bool :=
  c = '.' || c = '!' || c = '?'

/-- Python `str.lower` on the ASCII fragment: `A`-`Z` map to `a`-`z`, everything
else is unchanged. -/
def pyToLower (c : Char) : Char :=
  if 'A' ≤ c ∧ c ≤ 'Z' then Char.ofNat (c.toNat + 32) else c

/-- Python `str.strip` (ASCII whitespace): drop whitespace from both ends. -/
def pyStrip (t : List Char) : List Char :=
  ((t.dropWhile pyIsSpace).reverse.dropWhile pyIsSpace).reverse

/-- Split a character list into its maximal runs of characters satisfying `p`,
discarding the separating characters. `cur` accumulates the current run, reversed. -/
def runsAux (p : Char → Bool) (cur : List Char) : List Char → List (List Char)
  | [] => if cur.isEmpty then [] else [cur.reverse]
  | c :: cs =>
    if p c then runsAux p (c :: cur) cs
    else if cur.isEmpty then runsAux p [] cs
    else cur.reverse :: runsAux p [] cs

/-- The maximal `\w`-runs of a string (the regex word segmentation underlying `\b`). -/
def wordRuns (s : List Char) : List (List Char) :=
  runsAux isWordChar [] s

/-- The matches of `re.findall(r'\b[a-zA-Z]+\b', s)`: a maximal `\w`-run matches
exactly when it consists of letters only (its neighbours are non-`\w`, giving the
two boundaries; a letter run touching a digit or underscore has no boundary there
and is skipped by the regex). -/
def pyWords (s : List Char) : List (List Char) :=
  (wordRuns s).filter (fun r => r.all Char.isAlpha)

/-- Spec-side notion used by the original claims C4 and C8: the maximal runs of
ASCII letters of a string, with no adjacency condition. Differs from `pyWords`
on text like `"x1"`, whose letter run `x` touches a digit. -/
def letterRuns (s : List Char) : List (List Char) :=
  runsAux Char.isAlpha [] s

/-- Head of a character list is a `\w` character (`false` on the empty list /
string edge). -/
def nextIsWord : List Char → Bool
  | [] => false
  | c :: _ => isWordChar c

/-- One attempted match of the pattern `\b` + literal `w` + `\b` at the current
position of `s`, where `prevW` says whether the character just before the current
position is a `\w` character (`false` at the start of the string). Mirrors the
regex: `\b` holds where `\w`-ness changes. -/
def matchHere (w : List Char) (prevW : Bool) (s : List Char) : Bool :=
  !w.isEmpty && w.isPrefixOf s &&
    (prevW != isWordChar (w.headD 'a')) &&
    (isWordChar (w.getLastD 'a') != nextIsWord (s.drop w.length))

/-- The scan of `re.findall(r'\b' + re.escape(w) + r'\b', s)`: left to right,
non-overlapping; after a successful match the scan resumes right after it. -/
def scanCount (w : List Char) (prevW : Bool) (s : List Char) : Nat :=
  match s with
  | [] => 0
  | c :: cs =>
    if h : matchHere w prevW (c :: cs) = true then
      1 + scanCount w (isWordChar (w.getLastD 'a')) ((c :: cs).drop w.length)
    else
      scanCount w (isWordChar c) cs
termination_by s.length
decreasing_by
  · simp only [matchHere, Bool.and_eq_true] at h
    have hw : w.isEmpty = false := by
      have := h.1.1.1
      simpa using this
    have hlen : 1 ≤ w.length := by
      cases w with
      | nil => simp at hw
      | cons a as => simp
    simp only [List.length_drop, List.length_cons]
    omega
  · simp

/-- The function `count_specific_word` of the source: guard on empty inputs,
lowercase both, then count the whole-word regex matches. -/
def count_specific_word (text word : String) : Nat :=
  if text.toList = [] ∨ word.toList = [] then 0
  else scanCount (word.toList.map pyToLower) false (text.toList.map pyToLower)

/-- Spec-side counter for the amended claim C3: walk every position of `s` from
left to right and count the positions where the literal `w` occurs preceded by a
non-`\w` character or the string start (tracked by `prevW`) and followed by a
non-`\w` character or the string end. For a word made of `\w` characters such
occurrences cannot overlap, so this equals the non-overlapping match count. -/
def countOccurrencesWB (w : List Char) (prevW : Bool) : List Char → Nat
  | [] => 0
  | c :: cs =>
    (if w.isPrefixOf (c :: cs) && !prevW && !nextIsWord ((c :: cs).drop w.length)
     then 1 else 0) + countOccurrencesWB w (isWordChar c) cs

/-- Head of a character list is an ASCII letter (`false` on the empty list). -/
def nextIsLetter : List Char → Bool
  | [] => false
  | c :: _ => c.isAlpha

/-- Scan written from the words of claim C3 as stated: non-overlapping
occurrences of `w` that are preceded and followed by a non-letter character or a
string edge (`prevL` says whether the previous character is a letter). -/
def scanCountLetter (w : List Char) (prevL : Bool) (s : List Char) : Nat :=
  match s with
  | [] => 0
  | c :: cs =>
    if h : (!w.isEmpty && w.isPrefixOf (c :: cs) && !prevL &&
            !nextIsLetter ((c :: cs).drop w.length)) = true then
      1 + scanCountLetter w (w.getLastD 'a').isAlpha ((c :: cs).drop w.length)
    else
      scanCountLetter w c.isAlpha cs
termination_by s.length
decreasing_by
  · simp only [Bool.and_eq_true] at h
    have hw : w.isEmpty = false := by
      have := h.1.1.1
      simpa using this
    have hlen : 1 ≤ w.length := by
      cases w with
      | nil => simp at hw
      | cons a as => simp
    simp only [List.length_drop, List.length_cons]
    omega
  · simp

/-- The behaviour claim C3 ascribes to `count_specific_word`, transcribed
literally: lowercase both, then count non-overlapping whole-word matches where
"whole word" means bounded by non-letters or string edges. -/
def count_specific_word_claimed (text word : String) : Nat :=
  if text.toList = [] ∨ word.toList = [] then 0
  else scanCountLetter (word.toList.map pyToLower) false (text.toList.map pyToLower)

/-- The distinct elements of a list in order of first occurrence: the key order
of a CPython 3.7+ `dict`/`Counter` built by a single left-to-right insertion scan. -/
def firstOccKeys : List (List Char) → List (List Char)
  | [] => []
  | w :: ws => w :: firstOccKeys (ws.filter (fun x => x ≠ w))
termination_by l => l.length
decreasing_by
  have := List.length_filter_le (fun x => decide (x ≠ w)) ws
  simp only [List.length_cons]
  omega

/-- `Counter(ws).most_common(1)[0][0]`: CPython's `heapq.nlargest(1, items, key)`
is `max(items, key)`, which scans the insertion-ordered items and replaces the
current best only on a strictly greater count — so the first-inserted key among
those of maximal count wins. -/
def mostCommon1 (ws : List (List Char)) : Option (List Char) :=
  match firstOccKeys ws with
  | [] => none
  | k :: ks => some (ks.foldl (fun best x => if ws.count x > ws.count best then x else best) k)

/-- The function `identify_most_common_word` of the source: `None` on empty or
all-whitespace text, tokenize the lowercased text with `\b[a-zA-Z]+\b`, `None`
if no token, else the most common token (first seen wins ties). -/
def identify_most_common_word (text : String) : Option String :=
  if text.toList = [] ∨ text.toList.all pyIsSpace then none
  else if (pyWords (text.toList.map pyToLower)).isEmpty then none
  else (mostCommon1 (pyWords (text.toList.map pyToLower))).map (fun l => String.mk l)

/-- The function `calculate_average_word_length` of the source: `0.0` on empty or
all-whitespace text, tokenize the original-case text with `\b[a-zA-Z]+\b`, `0.0`
if no token, else the exact quotient of total token length by token count. -/
def calculate_average_word_length (text : String) : ℚ :=
  if text.toList = [] ∨ text.toList.all pyIsSpace then 0
  else if (pyWords text.toList).isEmpty then 0
  else (((pyWords text.toList).map List.length).sum : ℚ) / ((pyWords text.toList).length : ℚ)

/-- The scan of `re.split(r'\n\s*\n', s)`. At a newline, the greedy `\s*`
followed by `\n` matches up to the last newline of the whitespace run that
follows; if that run has no newline there is no match and the character joins
the current segment (accumulated reversed in `cur`). -/
def splitPara (cur : List Char) (s : List Char) : List (List Char) :=
  match s with
  | [] => [cur.reverse]
  | c :: cs =>
    if c = '\n' then
      if '\n' ∈ cs.takeWhile pyIsSpace then
        cur.reverse :: splitPara []
          (cs.drop ((cs.takeWhile pyIsSpace).length -
            ((cs.takeWhile pyIsSpace).reverse.takeWhile (fun d => d != '\n')).length))
      else splitPara (c :: cur) cs
    else splitPara (c :: cur) cs
termination_by s.length
decreasing_by
  · have h := List.length_drop
      ((cs.takeWhile pyIsSpace).length -
        ((cs.takeWhile pyIsSpace).reverse.takeWhile (fun d => d != '\n')).length) cs
    simp only [List.length_cons]
    omega
  · simp
  · simp

/-- The function `count_paragraphs` of the source: 1 on empty text, else strip,
split on `\n\s*\n`, drop blank blocks, floor at 1. -/
def count_paragraphs (text : String) : Nat :=
  if text.toList = [] then 1
  else max 1 (((splitPara [] (pyStrip text.toList)).filter
      (fun p => p.any (fun c => !pyIsSpace c))).length)

/-- The scan of `re.split(r'[.!?]+(?=\s|$)', s)`. At a punctuation character the
greedy `[.!?]+` takes the whole maximal punctuation run; the lookahead succeeds
exactly when the run is followed by whitespace or the end of the string (`$`
before a trailing newline is subsumed by `\s`). A shorter match is impossible
since every proper prefix of the run is followed by more punctuation. On failure
the whole run joins the current segment. -/
def splitSent (cur : List Char) (s : List Char) : List (List Char) :=
  match s with
  | [] => [cur.reverse]
  | c :: cs =>
    if isSentPunct c then
      if (cs.dropWhile isSentPunct).isEmpty ||
          pyIsSpace ((cs.dropWhile isSentPunct).headD 'x') then
        cur.reverse :: splitSent [] (cs.dropWhile isSentPunct)
      else
        splitSent ((c :: cs.takeWhile isSentPunct).reverse ++ cur) (cs.dropWhile isSentPunct)
    else splitSent (c :: cur) cs
termination_by s.length
decreasing_by
  · have := (@List.dropWhile_sublist Char cs isSentPunct).length_le
    simp only [List.length_cons]
    omega
  · have := (@List.dropWhile_sublist Char cs isSentPunct).length_le
    simp only [List.length_cons]
    omega
  · simp

/-- The function `count_sentences` of the source: 1 on empty text, else split on
`[.!?]+(?=\s|$)`, drop blank segments, floor at 1. -/
def count_sentences (text : String) : Nat :=
  if text.toList = [] then 1
  else max 1 (((splitSent [] text.toList).filter
      (fun p => p.any (fun c => !pyIsSpace c))).length)

/-! ## Claim C1 (sentence count on `"Mr. Smith arrived."`) -/

/-- Claim C1 is false: the period after the abbreviation `Mr.` is followed by a
space, so the lookahead `(?=\s|$)` succeeds there and the code does count it as a
sentence boundary; the splitter produces the two non-blank segments `Mr` and
` Smith arrived`, and `count_sentences "Mr. Smith arrived."` is 2, not the
claimed 1. -/
theorem c1_counterexample :
    ((splitSent [] "Mr. Smith arrived.".toList).filter
      (fun p => p.any (fun c => !pyIsSpace c))) = ["Mr".toList, " Smith arrived".toList] ∧
    count_sentences "Mr. Smith arrived." = 2 := by
  constructor
  · simp [splitSent, isSentPunct, pyIsSpace]
  · simp [count_sentences, splitSent, isSentPunct, pyIsSpace]

/-- Amended C1: `count_sentences "Mr. Smith arrived."` returns 2. The period of
`Mr.` is followed by whitespace, hence is a boundary, and the final period is
followed by the end of the text; the surviving segments are `Mr` and
` Smith arrived`. -/
theorem c1_amended : count_sentences "Mr. Smith arrived." = 2 := by
  simp [count_sentences, splitSent, isSentPunct, pyIsSpace]

/-! ## Claim C6 (totality and empty-input sentinels) -/

/-- Claim C6: the analysis functions are total by construction (each is a total
Lean function obtained by direct translation; the Python originals guard every
edge case and have no raising operation), and the empty-input sentinels of
`count_specific_word` hold: an empty search word or an empty text give 0. -/
theorem c6_total_sentinels : ∀ T W : String,
    count_specific_word T "" = 0 ∧ count_specific_word "" W = 0 := by
  intro T W
  constructor
  · simp [count_specific_word]
  · simp [count_specific_word]

/-! ## Claim C9 (case insensitivity of `count_specific_word`) -/

/-- Claim C9: `count_specific_word` is case-insensitive in both arguments — any
two texts and any two search words that agree up to ASCII letter case (i.e.
whose ASCII-lowercasings agree) give the same count. -/
theorem c9_case_insensitive : ∀ T₁ W₁ T₂ W₂ : String,
    T₁.toList.map pyToLower = T₂.toList.map pyToLower →
    W₁.toList.map pyToLower = W₂.toList.map pyToLower →
    count_specific_word T₁ W₁ = count_specific_word T₂ W₂ := by
  intro T₁ W₁ T₂ W₂ hT hW
  have hTe : (T₁.toList = []) ↔ (T₂.toList = []) := by
    constructor <;> intro h
    · have h2 := hT
      rw [h] at h2
      simpa using h2.symm
    · have h2 := hT
      rw [h] at h2
      simpa using h2
  have hWe : (W₁.toList = []) ↔ (W₂.toList = []) := by
    constructor <;> intro h
    · have h2 := hW
      rw [h] at h2
      simpa using h2.symm
    · have h2 := hW
      rw [h] at h2
      simpa using h2
  unfold count_specific_word
  by_cases h1 : T₁.toList = [] ∨ W₁.toList = []
  · have h2 : T₂.toList = [] ∨ W₂.toList = [] := by tauto
    simp only [h1, h2, if_pos]
  · have h2 : ¬(T₂.toList = [] ∨ W₂.toList = []) := by tauto
    rw [if_neg h1, if_neg h2, hT, hW]

/-- Witness for C9 at concrete inputs: `"AI and ai"` with word `"AI"` versus the
case variant `"Ai And AI"` with word `"ai"`. -/
theorem c9_witness :
    count_specific_word "AI and ai" "AI" = count_specific_word "Ai And AI" "ai" :=
  c9_case_insensitive "AI and ai" "AI" "Ai And AI" "ai" (by decide) (by decide)

/-! ## Claim C3 (whole-word matching semantics of `count_specific_word`) -/

/-- A successful `isPrefixOf` splits the list. -/
theorem isPrefixOf_eq_append : ∀ (w s : List Char), w.isPrefixOf s = true →
    s = w ++ s.drop w.length := by
  intro w
  induction w with
  | nil => intro s _; simp
  | cons a as ih =>
    intro s hp
    cases s with
    | nil => simp [List.isPrefixOf] at hp
    | cons b bs =>
      simp only [List.isPrefixOf, Bool.and_eq_true, beq_iff_eq] at hp
      have := ih bs hp.2
      simp only [List.length_cons, List.drop_succ_cons, List.cons_append, List.cons.injEq]
      exact ⟨hp.1.symm, this⟩

/-- Walking over a block of `\w` characters with the previous-character flag set
finds no boundary-valid occurrence: the precede-condition fails at every step. -/
theorem countOccurrencesWB_skip (w : List Char) :
    ∀ (u rest : List Char), u.all isWordChar = true →
    countOccurrencesWB w true (u ++ rest) = countOccurrencesWB w true rest := by
  intro u
  induction u with
  | nil => intro rest _; simp
  | cons x u' ih =>
    intro rest hall
    simp only [List.all_cons, Bool.and_eq_true] at hall
    simp only [List.cons_append, countOccurrencesWB, Bool.not_true, Bool.and_false,
      Bool.false_and, Bool.and_self]
    rw [hall.1]
    simpa using ih rest hall.2

/-- For a nonempty search word consisting of `\w` characters, the non-overlapping
regex scan counts exactly the positions where the word occurs flanked by
non-`\w` characters or string edges: two such occurrences cannot overlap, since
every interior position is preceded by a `\w` character of the word itself. -/
theorem scanCount_eq_countOccurrencesWB (w : List Char) (hne : w ≠ [])
    (hall : w.all isWordChar = true) :
    ∀ (n : Nat) (s : List Char), s.length ≤ n → ∀ (prevW : Bool),
    scanCount w prevW s = countOccurrencesWB w prevW s := by
  have hhead : isWordChar (w.headD 'a') = true := by
    cases w with
    | nil => exact absurd rfl hne
    | cons a as =>
      simp only [List.all_cons, Bool.and_eq_true] at hall
      simpa using hall.1
  have hlast : isWordChar (w.getLastD 'a') = true := by
    have hmem : w.getLastD 'a' ∈ w := by
      cases w with
      | nil => exact absurd rfl hne
      | cons a as => exact List.mem_of_mem_getLast? rfl
    exact List.all_eq_true.mp hall _ hmem
  intro n
  induction n with
  | zero =>
    intro s hs prevW
    have : s = [] := by
      cases s with
      | nil => rfl
      | cons c cs => simp at hs
    subst this
    simp [scanCount, countOccurrencesWB]
  | succ n ih =>
    intro s hs prevW
    cases s with
    | nil => simp [scanCount, countOccurrencesWB]
    | cons c cs =>
      by_cases h : matchHere w prevW (c :: cs) = true
      · have hcond := h
        simp only [matchHere, Bool.and_eq_true, bne_iff_ne, ne_eq] at hcond
        obtain ⟨⟨⟨_, hpre⟩, hprevne⟩, hnextne⟩ := hcond
        have hprev : prevW = false := by
          rw [hhead] at hprevne
          cases prevW with
          | false => rfl
          | true => exact absurd rfl hprevne
        have hnext : nextIsWord ((c :: cs).drop w.length) = false := by
          rw [hlast] at hnextne
          cases hnw : nextIsWord ((c :: cs).drop w.length) with
          | false => rfl
          | true => rw [hnw] at hnextne; exact absurd rfl hnextne
        rw [scanCount, dif_pos h]
        have hsplit := isPrefixOf_eq_append w (c :: cs) hpre
        obtain ⟨w0, w', rfl⟩ : ∃ w0 w', w = w0 :: w' := by
          cases w with
          | nil => exact absurd rfl hne
          | cons a as => exact ⟨a, as, rfl⟩
        have hcw : c = w0 ∧ cs = w' ++ (c :: cs).drop (w0 :: w').length := by
          have h2 := hsplit
          simp only [List.cons_append] at h2
          injection h2 with h3 h4
          exact ⟨h3, h4⟩
        have hrest : ((c :: cs).drop (w0 :: w').length).length ≤ n := by
          have := List.length_drop (w0 :: w').length (c :: cs)
          simp only [List.length_cons] at this hs ⊢
          omega
        rw [ih _ hrest _]
        rw [countOccurrencesWB]
        have hcondB : ((w0 :: w').isPrefixOf (c :: cs) && !prevW &&
            !nextIsWord ((c :: cs).drop (w0 :: w').length)) = true := by
          rw [hpre, hprev, hnext]
          rfl
        rw [hcondB]
        have hcword : isWordChar c = true := by
          rw [hcw.1]
          simp only [List.all_cons, Bool.and_eq_true] at hall
          exact hall.1
        rw [hcword] at *
        have hcs := hcw.2
        rw [hlast]
        conv_rhs => rw [hcs]
        rw [countOccurrencesWB_skip (w0 :: w') w' _ (by
          simp only [List.all_cons, Bool.and_eq_true] at hall
          exact hall.2)]
        have hcslen : cs.length ≤ n := by
          simp only [List.length_cons] at hs
          omega
        have hrest2 : ((c :: cs).drop (w0 :: w').length).length ≤ n := hrest
        simp
      · rw [scanCount, dif_neg h]
        have hcs : cs.length ≤ n := by
          simp only [List.length_cons] at hs
          omega
        rw [ih cs hcs (isWordChar c)]
        rw [countOccurrencesWB]
        have hcond : ((w.isPrefixOf (c :: cs)) && !prevW &&
            !nextIsWord ((c :: cs).drop w.length)) = false := by
          by_contra hcc
          apply h
          have hcc' : (w.isPrefixOf (c :: cs) && !prevW &&
              !nextIsWord ((c :: cs).drop w.length)) = true := by
            cases hx : (w.isPrefixOf (c :: cs) && !prevW &&
                !nextIsWord ((c :: cs).drop w.length)) with
            | false => exact absurd hx hcc
            | true => rfl
          simp only [Bool.and_eq_true, Bool.not_eq_true'] at hcc'
          simp only [matchHere, Bool.and_eq_true, bne_iff_ne, ne_eq]
          refine ⟨⟨⟨by simpa using hne, hcc'.1.1⟩, ?_⟩, ?_⟩
          · rw [hhead, hcc'.1.2]
            simp
          · rw [hlast, hcc'.2]
            simp
        rw [hcond]
        simp

/-- Claim C3 as stated is false: it demands letter boundaries, but the regex
`\b` sits on `\w` transitions, and digits and underscores are `\w`. Searching
`"art"` in `"art1"`, the claimed rule counts the occurrence (the following `1`
is a non-letter) while the code counts nothing (no boundary between `t` and
`1`). -/
theorem c3_counterexample :
    count_specific_word "art1" "art" = 0 ∧ count_specific_word_claimed "art1" "art" = 1 := by
  constructor
  · simp [count_specific_word, scanCount, matchHere, pyToLower, isWordChar, nextIsWord]
  · simp [count_specific_word_claimed, scanCountLetter, pyToLower, nextIsLetter]

/-- Amended C3: for every non-empty text and every non-empty search word whose
lowercasing consists of word characters (ASCII letters, digits, underscores) —
in particular every letters-only word — `count_specific_word` lowercases both,
treats the word literally, and returns the number of occurrences of the word
preceded and followed by a non-word character or a string edge (such occurrences
cannot overlap); and searching `"art"` in `"artificial"` yields 0. -/
theorem c3_amended :
    (∀ T W : String, T.toList ≠ [] → W.toList ≠ [] →
      (W.toList.map pyToLower).all isWordChar = true →
      count_specific_word T W =
        countOccurrencesWB (W.toList.map pyToLower) false (T.toList.map pyToLower)) ∧
    count_specific_word "artificial" "art" = 0 := by
  constructor
  · intro T W hT hW hall
    unfold count_specific_word
    rw [if_neg (by tauto)]
    exact scanCount_eq_countOccurrencesWB (W.toList.map pyToLower)
      (by simpa using hW) hall (T.toList.map pyToLower).length _ le_rfl false
  · have h := scanCount_eq_countOccurrencesWB ("art".toList.map pyToLower)
      (by decide) (by decide) ("artificial".toList.map pyToLower).length _ le_rfl false
    unfold count_specific_word
    rw [if_neg (by decide)]
    rw [h]
    decide

/-- Witness for the amended C3 at concrete inputs: counting `"Art"` in
`"the art of art."` finds the two word-boundary occurrences. -/
theorem c3_amended_witness : count_specific_word "the art of art." "Art" = 2 := by
  have h := c3_amended.1 "the art of art." "Art" (by decide) (by decide) (by decide)
  rw [h]
  decide

/-! ## Claim C10 (whitespace-only text behaves like empty text) -/

/-- Whitespace characters are not sentence punctuation. -/
theorem space_not_punct {c : Char} (h : pyIsSpace c = true) : isSentPunct c = false := by
  simp only [pyIsSpace, Bool.or_eq_true, decide_eq_true_eq] at h
  rcases h with ((((h | h) | h) | h) | h) | h <;> subst h <;> decide

/-- Whitespace characters are not `\w` characters. -/
theorem space_not_word {c : Char} (h : pyIsSpace c = true) : isWordChar c = false := by
  simp only [pyIsSpace, Bool.or_eq_true, decide_eq_true_eq] at h
  rcases h with ((((h | h) | h) | h) | h) | h <;> subst h <;> decide

/-- ASCII lowercasing fixes whitespace characters. -/
theorem pyToLower_of_space {c : Char} (h : pyIsSpace c = true) : pyToLower c = c := by
  simp only [pyIsSpace, Bool.or_eq_true, decide_eq_true_eq] at h
  rcases h with ((((h | h) | h) | h) | h) | h <;> subst h <;> decide

/-- A string with no `p`-characters has no `p`-runs. -/
theorem runsAux_nil_of_none (p : Char → Bool) :
    ∀ s : List Char, (∀ c ∈ s, p c = false) → runsAux p [] s = [] := by
  intro s
  induction s with
  | nil => intro _; simp [runsAux]
  | cons c cs ih =>
    intro h
    rw [runsAux]
    rw [h c (by simp)]
    simp only [Bool.false_eq_true, if_false, List.isEmpty_nil, if_true]
    exact ih (fun d hd => h d (by simp [hd]))

/-- A whitespace-only string has no word tokens. -/
theorem pyWords_nil_of_space {t : List Char} (h : ∀ c ∈ t, pyIsSpace c = true) :
    pyWords t = [] := by
  unfold pyWords wordRuns
  rw [runsAux_nil_of_none isWordChar t (fun c hc => space_not_word (h c hc))]
  rfl

/-- Lowercasing a whitespace-only string leaves it unchanged. -/
theorem map_pyToLower_of_space {t : List Char} (h : ∀ c ∈ t, pyIsSpace c = true) :
    t.map pyToLower = t := by
  induction t with
  | nil => rfl
  | cons c cs ih =>
    simp only [List.map_cons]
    rw [pyToLower_of_space (h c (by simp)), ih (fun d hd => h d (by simp [hd]))]

/-- On punctuation-free text the sentence splitter returns a single segment. -/
theorem splitSent_no_punct :
    ∀ (s : List Char), (∀ c ∈ s, isSentPunct c = false) → ∀ cur,
    splitSent cur s = [cur.reverse ++ s] := by
  intro s
  induction s with
  | nil => intro _ cur; simp [splitSent]
  | cons c cs ih =>
    intro h cur
    rw [splitSent]
    rw [if_neg (by rw [h c (by simp)]; simp)]
    rw [ih (fun d hd => h d (by simp [hd])) (c :: cur)]
    simp

/-- Claim C10: on non-empty but whitespace-only text the analysis functions
behave exactly as on the empty string: one paragraph, one sentence, no most
common word, zero average word length. -/
theorem c10_whitespace_only : ∀ text : String, text.toList ≠ [] →
    (∀ c ∈ text.toList, pyIsSpace c = true) →
    count_paragraphs text = 1 ∧ count_sentences text = 1 ∧
    identify_most_common_word text = none ∧ calculate_average_word_length text = 0 := by
  intro text hne hws
  refine ⟨?_, ?_, ?_, ?_⟩
  · unfold count_paragraphs
    rw [if_neg hne]
    have hstrip : pyStrip text.toList = [] := by
      unfold pyStrip
      rw [List.dropWhile_eq_nil_iff.mpr hws]
      simp
    rw [hstrip]
    simp [splitPara]
  · unfold count_sentences
    rw [if_neg hne]
    rw [splitSent_no_punct text.toList (fun c hc => space_not_punct (hws c hc)) []]
    have hnone : (text.toList.any fun c => !pyIsSpace c) = false := by
      rw [List.any_eq_false]
      intro x hx
      rw [hws x hx]
      decide
    simp only [List.reverse_nil, List.nil_append, List.filter_cons, hnone,
      Bool.false_eq_true, if_false, List.filter_nil, List.length_nil]
    rfl
  · unfold identify_most_common_word
    rw [if_pos (Or.inr (List.all_eq_true.mpr hws))]
  · unfold calculate_average_word_length
    rw [if_pos (Or.inr (List.all_eq_true.mpr hws))]

/-- Witness for C10 at the concrete whitespace-only text `" \n\t"`. -/
theorem c10_witness :
    count_paragraphs " \n\t" = 1 ∧ count_sentences " \n\t" = 1 ∧
    identify_most_common_word " \n\t" = none ∧ calculate_average_word_length " \n\t" = 0 :=
  c10_whitespace_only " \n\t" (by decide) (by decide)

/-! ## Claims C4 and C5 (most common word: guards, membership, tie-break) -/

/-- The maximal frequency of any token of `ws` in `ws` (0 when `ws` is empty). -/
def maxFreq (ws : List (List Char)) : Nat :=
  (ws.map (fun x => ws.count x)).foldl Nat.max 0

/-- `firstOccKeys` preserves membership. -/
theorem mem_firstOccKeys : ∀ (l : List (List Char)) (x : List Char),
    x ∈ firstOccKeys l ↔ x ∈ l := by
  intro l
  induction l using firstOccKeys.induct with
  | case1 => intro x; simp [firstOccKeys]
  | case2 w ws ih =>
    intro x
    rw [firstOccKeys]
    simp only [List.mem_cons]
    constructor
    · rintro (rfl | hx)
      · simp
      · have := (ih x).mp hx
        simp only [List.mem_filter, decide_eq_true_eq] at this
        exact Or.inr this.1
    · rintro (rfl | hx)
      · exact Or.inl rfl
      · by_cases hxw : x = w
        · exact Or.inl hxw
        · refine Or.inr ((ih x).mpr ?_)
          simp only [List.mem_filter, decide_eq_true_eq]
          exact ⟨hx, hxw⟩

/-- Removing elements that fail the predicate does not change `find?`. -/
theorem find?_filter_ne (P : List Char → Bool) (w : List Char) (hPw : P w = false) :
    ∀ l : List (List Char), (l.filter (fun x => decide (x ≠ w))).find? P = l.find? P := by
  intro l
  induction l with
  | nil => rfl
  | cons x xs ih =>
    rw [List.filter_cons]
    by_cases hxw : x = w
    · rw [if_neg (by simp [hxw])]
      rw [ih]
      subst hxw
      rw [List.find?_cons_of_neg _ (by simp [hPw])]
    · rw [if_pos (by simp [hxw])]
      cases hPx : P x with
      | true =>
        rw [List.find?_cons_of_pos _ hPx, List.find?_cons_of_pos _ hPx]
      | false =>
        rw [List.find?_cons_of_neg _ (by simp [hPx]),
          List.find?_cons_of_neg _ (by simp [hPx]), ih]

/-- `find?` over the first-occurrence key list agrees with `find?` over the
original list: both return the value-level first hit, and keys are ordered by
first occurrence. -/
theorem find?_firstOccKeys (P : List Char → Bool) : ∀ l : List (List Char),
    (firstOccKeys l).find? P = l.find? P := by
  intro l
  induction l using firstOccKeys.induct with
  | case1 => rw [firstOccKeys]
  | case2 w ws ih =>
    rw [firstOccKeys]
    cases hPw : P w with
    | true => rw [List.find?_cons_of_pos _ hPw, List.find?_cons_of_pos _ hPw]
    | false =>
      rw [List.find?_cons_of_neg _ (by simp [hPw]),
        List.find?_cons_of_neg _ (by simp [hPw]), ih,
        find?_filter_ne P w hPw]

/-- The initial value bounds a `foldl Nat.max`. -/
theorem le_foldl_max_init : ∀ (l : List Nat) (init : Nat), init ≤ l.foldl Nat.max init := by
  intro l
  induction l with
  | nil => intro init; exact le_rfl
  | cons a l ih =>
    intro init
    rw [List.foldl_cons]
    exact le_trans (Nat.le_max_left init a) (ih _)

/-- Every member bounds a `foldl Nat.max` from below. -/
theorem le_foldl_max_mem : ∀ (l : List Nat) (init a : Nat), a ∈ l → a ≤ l.foldl Nat.max init := by
  intro l
  induction l with
  | nil => intro init a ha; simp at ha
  | cons b l ih =>
    intro init a ha
    rw [List.foldl_cons]
    rcases List.mem_cons.mp ha with rfl | ha
    · exact le_trans (Nat.le_max_right init a) (le_foldl_max_init _ _)
    · exact ih _ a ha

/-- A `foldl Nat.max` is the initial value or a member. -/
theorem foldl_max_cases : ∀ (l : List Nat) (init : Nat),
    l.foldl Nat.max init = init ∨ l.foldl Nat.max init ∈ l := by
  intro l
  induction l with
  | nil => intro init; exact Or.inl rfl
  | cons a l ih =>
    intro init
    rw [List.foldl_cons]
    rcases ih (Nat.max init a) with h | h
    · rw [h]
      have h2 : Nat.max init a = init ∨ Nat.max init a = a := max_choice init a
      rcases h2 with h2 | h2 <;> rw [h2]
      · exact Or.inl rfl
      · exact Or.inr (by simp)
    · exact Or.inr (List.mem_cons_of_mem _ h)

/-- Two lists of naturals with the same members have the same maximum. -/
theorem foldl_max_congr_mem {l₁ l₂ : List Nat} (h : ∀ a, a ∈ l₁ ↔ a ∈ l₂) :
    l₁.foldl Nat.max 0 = l₂.foldl Nat.max 0 := by
  apply Nat.le_antisymm
  · rcases foldl_max_cases l₁ 0 with h1 | h1
    · rw [h1]; exact Nat.zero_le _
    · exact le_foldl_max_mem _ _ _ ((h _).mp h1)
  · rcases foldl_max_cases l₂ 0 with h1 | h1
    · rw [h1]; exact Nat.zero_le _
    · exact le_foldl_max_mem _ _ _ ((h _).mpr h1)

/-- The strict-greater replacement fold of Python's `max` returns the first
element (in scan order) whose key equals the maximum key. -/
theorem pickMax_find (f : List Char → Nat) : ∀ (ks : List (List Char)) (k : List Char),
    (k :: ks).find? (fun x => f x == (ks.map f).foldl Nat.max (f k)) =
      some (ks.foldl (fun b x => if f x > f b then x else b) k) := by
  intro ks
  induction ks with
  | nil =>
    intro k
    simp [List.find?]
  | cons k2 ks' ih =>
    intro k
    by_cases h : f k2 > f k
    · have hM : ((k2 :: ks').map f).foldl Nat.max (f k) = (ks'.map f).foldl Nat.max (f k2) := by
        simp only [List.map_cons, List.foldl_cons]
        congr 1
        exact max_eq_right (Nat.le_of_lt h)
      have hfold : (k2 :: ks').foldl (fun b x => if f x > f b then x else b) k =
          ks'.foldl (fun b x => if f x > f b then x else b) k2 := by
        rw [List.foldl_cons, if_pos h]
      rw [hM, hfold]
      have hk2M : f k2 ≤ (ks'.map f).foldl Nat.max (f k2) := le_foldl_max_init _ _
      have hkne : ¬ (f k = (ks'.map f).foldl Nat.max (f k2)) := by omega
      rw [List.find?_cons_of_neg _ (by simpa using hkne)]
      exact ih k2
    · have hM : ((k2 :: ks').map f).foldl Nat.max (f k) = (ks'.map f).foldl Nat.max (f k) := by
        simp only [List.map_cons, List.foldl_cons]
        congr 1
        exact max_eq_left (Nat.le_of_not_lt h)
      have hfold : (k2 :: ks').foldl (fun b x => if f x > f b then x else b) k =
          ks'.foldl (fun b x => if f x > f b then x else b) k := by
        rw [List.foldl_cons, if_neg h]
      rw [hM, hfold]
      have ihb := ih k
      have hkM : f k ≤ (ks'.map f).foldl Nat.max (f k) := le_foldl_max_init _ _
      by_cases hk : f k = (ks'.map f).foldl Nat.max (f k)
      · rw [List.find?_cons_of_pos _ (by simpa using hk)]
        rw [List.find?_cons_of_pos _ (by simpa using hk)] at ihb
        exact ihb
      · rw [List.find?_cons_of_neg _ (by simpa using hk)]
        rw [List.find?_cons_of_neg _ (by simpa using hk)] at ihb
        have hk2 : ¬ (f k2 = (ks'.map f).foldl Nat.max (f k)) := by omega
        rw [List.find?_cons_of_neg _ (by simpa using hk2)]
        exact ihb

/-- Full characterisation of `mostCommon1` on a nonempty token list: it returns
the first token (in left-to-right scan order) whose frequency is maximal; that
token is a member and its count dominates every other token's count. -/
theorem mostCommon1_spec (ws : List (List Char)) (hne : ws ≠ []) :
    ∃ r, mostCommon1 ws = some r ∧
      ws.find? (fun x => ws.count x == maxFreq ws) = some r ∧
      r ∈ ws ∧ ws.count r = maxFreq ws ∧ ∀ v ∈ ws, ws.count v ≤ ws.count r := by
  obtain ⟨w, ws2, rfl⟩ : ∃ w ws2, ws = w :: ws2 := by
    cases ws with
    | nil => exact absurd rfl hne
    | cons w ws2 => exact ⟨w, ws2, rfl⟩
  set ws := w :: ws2 with hws
  have hkeys : firstOccKeys ws = w :: firstOccKeys (ws2.filter (fun x => x ≠ w)) := by
    rw [hws, firstOccKeys]
  set ks := firstOccKeys (ws2.filter (fun x => x ≠ w)) with hks
  have hpick := pickMax_find (fun x => ws.count x) ks w
  simp only [] at hpick
  set r := ks.foldl (fun b x => if ws.count x > ws.count b then x else b) w with hr
  have hMeq : (ks.map (fun x => ws.count x)).foldl Nat.max (ws.count w) = maxFreq ws := by
    have h1 : (ks.map (fun x => ws.count x)).foldl Nat.max (ws.count w) =
        ((w :: ks).map (fun x => ws.count x)).foldl Nat.max 0 := by
      simp only [List.map_cons, List.foldl_cons, Nat.zero_max]
    rw [h1]
    unfold maxFreq
    apply foldl_max_congr_mem
    intro a
    simp only [List.mem_map]
    constructor
    · rintro ⟨x, hx, rfl⟩
      refine ⟨x, ?_, rfl⟩
      rw [← hkeys] at hx
      exact (mem_firstOccKeys ws x).mp hx
    · rintro ⟨x, hx, rfl⟩
      refine ⟨x, ?_, rfl⟩
      rw [← hkeys]
      exact (mem_firstOccKeys ws x).mpr hx
  rw [hMeq] at hpick
  have hkeyfind : (firstOccKeys ws).find? (fun x => ws.count x == maxFreq ws) = some r := by
    rw [hkeys]
    exact hpick
  have hwsfind : ws.find? (fun x => ws.count x == maxFreq ws) = some r := by
    rw [← find?_firstOccKeys]
    exact hkeyfind
  have hmem : r ∈ ws := List.mem_of_find?_eq_some hwsfind
  have hcount : ws.count r = maxFreq ws := by
    have := List.find?_some hwsfind
    simpa using this
  refine ⟨r, ?_, hwsfind, hmem, hcount, ?_⟩
  · unfold mostCommon1
    rw [hkeys]
  · intro v hv
    rw [hcount]
    unfold maxFreq
    exact le_foldl_max_mem _ _ _ (List.mem_map.mpr ⟨v, hv, rfl⟩)

/-- If the lowercased text has word tokens, the two guards of
`identify_most_common_word` both fail. -/
theorem identify_guards {t : List Char} (h : pyWords (t.map pyToLower) ≠ []) :
    ¬(t = [] ∨ t.all pyIsSpace = true) := by
  rintro (rfl | hall)
  · exact h rfl
  · apply h
    rw [map_pyToLower_of_space (List.all_eq_true.mp hall)]
    exact pyWords_nil_of_space (List.all_eq_true.mp hall)

/-- Characterisation of `identify_most_common_word` on text with at least one
token: it returns the first token of the scan whose frequency is maximal. -/
theorem identify_spec {text : String} (h : pyWords (text.toList.map pyToLower) ≠ []) :
    ∃ r, identify_most_common_word text = some (String.mk r) ∧
      (pyWords (text.toList.map pyToLower)).find?
        (fun x => (pyWords (text.toList.map pyToLower)).count x ==
          maxFreq (pyWords (text.toList.map pyToLower))) = some r ∧
      r ∈ pyWords (text.toList.map pyToLower) ∧
      (∀ v ∈ pyWords (text.toList.map pyToLower),
        (pyWords (text.toList.map pyToLower)).count v ≤
          (pyWords (text.toList.map pyToLower)).count r) := by
  obtain ⟨r, hmc, hfind, hmem, _, hmax⟩ := mostCommon1_spec _ h
  refine ⟨r, ?_, hfind, hmem, hmax⟩
  unfold identify_most_common_word
  rw [if_neg (identify_guards h), if_neg (by simpa using h), hmc]
  rfl

/-- Claim C4 is false as stated: `"x1"` is non-empty and contains the ASCII
letter `x`, yet `identify_most_common_word` returns the absence marker, because
the regex token `\b[a-zA-Z]+\b` requires word boundaries and there is none
between `x` and the digit `1`. -/
theorem c4_counterexample :
    identify_most_common_word "x1" = none ∧ "x1".toList = ['x', '1'] ∧
      (∃ c ∈ "x1".toList, c.isAlpha = true) := by
  refine ⟨?_, by decide, ⟨'x', by decide, by decide⟩⟩
  simp [identify_most_common_word, pyWords, wordRuns, runsAux, pyToLower, isWordChar, pyIsSpace]

/-- Amended C4: `identify_most_common_word` returns the absence marker `none`
iff the lowercased text has no word token, where the tokens are the maximal
runs of letters, digits and underscores that consist of letters only (the
matches of `\b[a-zA-Z]+\b`); otherwise it returns one of the lowercased tokens
of highest frequency. -/
theorem c4_amended : ∀ text : String,
    (identify_most_common_word text = none ↔ pyWords (text.toList.map pyToLower) = []) ∧
    (pyWords (text.toList.map pyToLower) ≠ [] →
      ∃ r, identify_most_common_word text = some (String.mk r) ∧
        r ∈ pyWords (text.toList.map pyToLower) ∧
        ∀ v ∈ pyWords (text.toList.map pyToLower),
          (pyWords (text.toList.map pyToLower)).count v ≤
            (pyWords (text.toList.map pyToLower)).count r) := by
  intro text
  constructor
  · constructor
    · intro hnone
      by_contra hne
      obtain ⟨r, hr, _⟩ := identify_spec hne
      rw [hnone] at hr
      exact Option.noConfusion hr
    · intro hnil
      unfold identify_most_common_word
      by_cases hg : text.toList = [] ∨ text.toList.all pyIsSpace = true
      · rw [if_pos hg]
      · rw [if_neg hg, if_pos (by rw [List.isEmpty_iff]; exact hnil)]
  · intro hne
    obtain ⟨r, h1, _, h3, h4⟩ := identify_spec hne
    exact ⟨r, h1, h3, h4⟩

/-- Witness for the amended C4 at `"The the THE cat"`: the most common word is
`the`, one of the tokens, with dominating count. -/
theorem c4_amended_witness :
    identify_most_common_word "The the THE cat" = some "the" ∧
    (∃ r, identify_most_common_word "The the THE cat" = some (String.mk r) ∧
      r ∈ pyWords ("The the THE cat".toList.map pyToLower) ∧
      ∀ v ∈ pyWords ("The the THE cat".toList.map pyToLower),
        (pyWords ("The the THE cat".toList.map pyToLower)).count v ≤
          (pyWords ("The the THE cat".toList.map pyToLower)).count r) := by
  constructor
  · simp [identify_most_common_word, pyWords, wordRuns, runsAux, pyToLower, isWordChar,
      firstOccKeys, mostCommon1, pyIsSpace]
  · exact (c4_amended "The the THE cat").2 (by decide)

/-- Claim C5: when the token list is nonempty (in particular whenever several
tokens tie for the maximal frequency), `identify_most_common_word`
deterministically returns the token whose occurrence comes first in the single
left-to-right scan among those of maximal frequency: its result is exactly
`find?` of the predicate "has maximal count" over the scanned token list. -/
theorem c5_first_seen_tiebreak : ∀ text : String,
    pyWords (text.toList.map pyToLower) ≠ [] →
    ∃ r, (pyWords (text.toList.map pyToLower)).find?
        (fun x => (pyWords (text.toList.map pyToLower)).count x ==
          maxFreq (pyWords (text.toList.map pyToLower))) = some r ∧
      identify_most_common_word text = some (String.mk r) := by
  intro text hne
  obtain ⟨r, h1, h2, _, _⟩ := identify_spec hne
  exact ⟨r, h2, h1⟩

/-- Witness for C5 at the tie `"b a a b"`: both tokens occur twice and the
first-seen token `b` is returned. -/
theorem c5_witness : identify_most_common_word "b a a b" = some "b" := by
  obtain ⟨r, h1, h2⟩ := c5_first_seen_tiebreak "b a a b" (by decide)
  have hfind : (pyWords ("b a a b".toList.map pyToLower)).find?
      (fun x => (pyWords ("b a a b".toList.map pyToLower)).count x ==
        maxFreq (pyWords ("b a a b".toList.map pyToLower))) = some ['b'] := by decide
  rw [hfind] at h1
  injection h1 with h1
  rw [h2, ← h1]

/-! ## Claim C8 (average word length) -/

/-- Claim C8 is false as stated: `"a1"` contains the maximal ASCII-letter run
`a`, so the claim demands `1/1 = 1.0`, but the code returns `0.0` — the regex
token `\b[a-zA-Z]+\b` rejects a letter run adjacent to a digit, leaving no
tokens at all. -/
theorem c8_counterexample :
    calculate_average_word_length "a1" = 0 ∧
    letterRuns "a1".toList = [['a']] ∧
    (((letterRuns "a1".toList).map List.length).sum : ℚ) /
      ((letterRuns "a1".toList).length : ℚ) = 1 := by
  have hlr : letterRuns "a1".toList = [['a']] := by decide
  refine ⟨?_, hlr, ?_⟩
  · simp [calculate_average_word_length, pyWords, wordRuns, runsAux, isWordChar, pyIsSpace]
  · rw [hlr]
    norm_num

/-- Amended C8: `calculate_average_word_length` returns 0 iff the text has no
word token — where the tokens are the matches of `\b[a-zA-Z]+\b` on the
original-case text, i.e. the maximal letter/digit/underscore runs made of
letters only — and otherwise returns the exact quotient of the total token
length by the token count, with `"a bb ccc"` mapping to `(1+2+3)/3 = 2`. -/
theorem c8_amended :
    (∀ text : String, calculate_average_word_length text =
      if pyWords text.toList = [] then 0
      else (((pyWords text.toList).map List.length).sum : ℚ) /
        ((pyWords text.toList).length : ℚ)) ∧
    calculate_average_word_length "a bb ccc" = 2 := by
  constructor
  · intro text
    unfold calculate_average_word_length
    by_cases hg : text.toList = [] ∨ text.toList.all pyIsSpace = true
    · rw [if_pos hg]
      have hnil : pyWords text.toList = [] := by
        rcases hg with h | h
        · rw [h]; rfl
        · exact pyWords_nil_of_space (List.all_eq_true.mp h)
      rw [if_pos hnil]
    · rw [if_neg hg]
      by_cases hw : pyWords text.toList = []
      · rw [if_pos (by rw [List.isEmpty_iff]; exact hw), if_pos hw]
      · rw [if_neg (by rw [List.isEmpty_iff]; exact hw), if_neg hw]
  · have h1 : pyWords "a bb ccc".toList = [['a'], ['b','b'], ['c','c','c']] := by decide
    unfold calculate_average_word_length
    rw [if_neg (by decide), if_neg (by rw [List.isEmpty_iff, h1]; decide), h1]
    norm_num

/-! ## Claim C2 (sentence splitting semantics) -/

/-- No adjacent pair (sentence punctuation, whitespace) occurs in `s`: together
with `endsPunctB s = false` this says no punctuation run inside `s` is followed
by whitespace or by the end of the enclosing text, i.e. `s` contains no
sentence boundary. -/
def noBdryPairB : List Char → Bool
  | c :: d :: rest => (!(isSentPunct c && pyIsSpace d)) && noBdryPairB (d :: rest)
  | _ => true

/-- The last character of `s` is sentence punctuation. -/
def endsPunctB (s : List Char) : Bool :=
  match s.getLast? with
  | some c => isSentPunct c
  | none => false

/-- A valid sentence segment: contains no punctuation-then-whitespace pair and
does not end in punctuation (such a run would be a boundary, being followed by
the next separator or by the end of the text). -/
def segOkB (s : List Char) : Bool := noBdryPairB s && !endsPunctB s

/-- Declarative transcription of the sentence-splitting contract of the spec:
`SentSegSpec t segs` holds when `t` decomposes into the segments `segs`
interleaved with separator runs such that every separator is a nonempty run of
`.`/`!`/`?` followed by whitespace or the end of the text, and no segment
contains a sentence boundary (no punctuation run inside a segment is followed
by whitespace, and no segment ends in punctuation). -/
inductive SentSegSpec : List Char → List (List Char) → Prop
  | last (s : List Char) : segOkB s = true → SentSegSpec s [s]
  | step (s r rest : List Char) (segs : List (List Char)) :
      segOkB s = true → r ≠ [] → r.all isSentPunct = true →
      (rest = [] ∨ pyIsSpace (rest.headD 'x') = true) →
      SentSegSpec rest segs → SentSegSpec (s ++ r ++ rest) (s :: segs)

/-- Sentence punctuation is not whitespace. -/
theorem punct_not_space {c : Char} (h : isSentPunct c = true) : pyIsSpace c = false := by
  simp only [isSentPunct, Bool.or_eq_true, decide_eq_true_eq] at h
  rcases h with (h | h) | h <;> subst h <;> decide

/-- Prepending a non-punctuation character preserves `noBdryPairB`. -/
theorem noBdryPairB_cons_nonpunct {c : Char} {h : List Char} (hc : isSentPunct c = false)
    (hh : noBdryPairB h = true) : noBdryPairB (c :: h) = true := by
  cases h with
  | nil => rfl
  | cons d h' =>
    rw [noBdryPairB]
    rw [hc]
    simpa using hh

/-- Prepending any character before a non-whitespace head preserves
`noBdryPairB`. -/
theorem noBdryPairB_cons_nonspace {c : Char} {h : List Char}
    (hd : pyIsSpace (h.headD 'x') = false) (hne : h ≠ [])
    (hh : noBdryPairB h = true) : noBdryPairB (c :: h) = true := by
  cases h with
  | nil => exact absurd rfl hne
  | cons d h' =>
    rw [noBdryPairB]
    simp only [List.headD_cons] at hd
    rw [hd]
    simpa using hh

/-- `endsPunctB` ignores a prepended character when the list is nonempty. -/
theorem endsPunctB_cons {c : Char} {h : List Char} (hne : h ≠ []) :
    endsPunctB (c :: h) = endsPunctB h := by
  cases h with
  | nil => exact absurd rfl hne
  | cons d h' =>
    unfold endsPunctB
    rw [List.getLast?_cons_cons]

/-- Prepending a non-punctuation character preserves segment validity. -/
theorem segOkB_cons_nonpunct {c : Char} {h : List Char} (hc : isSentPunct c = false)
    (hh : segOkB h = true) : segOkB (c :: h) = true := by
  unfold segOkB at hh ⊢
  simp only [Bool.and_eq_true, Bool.not_eq_true'] at hh ⊢
  cases h with
  | nil =>
    refine ⟨rfl, ?_⟩
    unfold endsPunctB
    simpa using hc
  | cons d h' =>
    exact ⟨noBdryPairB_cons_nonpunct hc hh.1, by rw [endsPunctB_cons (by simp)]; exact hh.2⟩

/-- Merging a punctuation run into a valid segment whose head is not whitespace
yields a valid segment: inside the merged segment every punctuation character is
followed by punctuation or by the non-whitespace head. -/
theorem segOkB_punct_append : ∀ (r : List Char), r.all isSentPunct = true →
    ∀ (d : Char) (h' : List Char), pyIsSpace d = false → segOkB (d :: h') = true →
    segOkB (r ++ d :: h') = true := by
  intro r
  induction r with
  | nil =>
    intro _ d h' _ hseg
    simpa using hseg
  | cons x r' ih =>
    intro hall d h' hd hseg
    simp only [List.all_cons, Bool.and_eq_true] at hall
    have ihh := ih hall.2 d h' hd hseg
    unfold segOkB at ihh ⊢
    simp only [Bool.and_eq_true, Bool.not_eq_true'] at ihh ⊢
    constructor
    · apply noBdryPairB_cons_nonspace ?_ ?_ ihh.1
      · cases r' with
        | nil => simpa using hd
        | cons y r'' =>
          simp only [List.cons_append, List.headD_cons]
          have h2 := hall.2
          simp only [List.all_cons, Bool.and_eq_true] at h2
          exact punct_not_space h2.1
      · cases r' <;> simp
    · rw [List.cons_append, @endsPunctB_cons x (r' ++ d :: h') (by cases r' <;> simp)]
      exact ihh.2

/-- Branch equation: empty input. -/
theorem splitSent_nil (cur : List Char) : splitSent cur [] = [cur.reverse] := by
  rw [splitSent]

/-- Branch equation: a non-punctuation character joins the current segment. -/
theorem splitSent_cons_np (cur : List Char) (c : Char) (cs : List Char)
    (h : isSentPunct c = false) : splitSent cur (c :: cs) = splitSent (c :: cur) cs := by
  rw [splitSent]
  rw [if_neg (by rw [h]; simp)]

/-- Branch equation: a punctuation run followed by whitespace or the end closes
the current segment. -/
theorem splitSent_cons_bdry (cur : List Char) (c : Char) (cs : List Char)
    (h : isSentPunct c = true)
    (h2 : ((cs.dropWhile isSentPunct).isEmpty ||
      pyIsSpace ((cs.dropWhile isSentPunct).headD 'x')) = true) :
    splitSent cur (c :: cs) = cur.reverse :: splitSent [] (cs.dropWhile isSentPunct) := by
  rw [splitSent]
  rw [if_pos h, if_pos h2]

/-- Branch equation: a punctuation run not followed by whitespace or the end
joins the current segment whole. -/
theorem splitSent_cons_nobdry (cur : List Char) (c : Char) (cs : List Char)
    (h : isSentPunct c = true)
    (h2 : ((cs.dropWhile isSentPunct).isEmpty ||
      pyIsSpace ((cs.dropWhile isSentPunct).headD 'x')) = false) :
    splitSent cur (c :: cs) =
      splitSent ((c :: cs.takeWhile isSentPunct).reverse ++ cur) (cs.dropWhile isSentPunct) := by
  rw [splitSent]
  rw [if_pos h, if_neg (by rw [h2]; simp)]

/-- The accumulator of `splitSent` only prepends (reversed) to the first
produced segment; in particular the result is never empty. -/
theorem splitSent_acc : ∀ (n : Nat) (t : List Char), t.length ≤ n → ∀ cur : List Char,
    ∃ hd tl, splitSent [] t = hd :: tl ∧ splitSent cur t = (cur.reverse ++ hd) :: tl := by
  intro n
  induction n with
  | zero =>
    intro t ht cur
    have ht0 : t = [] := by
      cases t with
      | nil => rfl
      | cons a as => simp at ht
    subst ht0
    exact ⟨[], [], by simp [splitSent_nil], by simp [splitSent_nil]⟩
  | succ n ih =>
    intro t ht cur
    cases t with
    | nil => exact ⟨[], [], by simp [splitSent_nil], by simp [splitSent_nil]⟩
    | cons c cs =>
      have hcs : cs.length ≤ n := by
        simp only [List.length_cons] at ht
        omega
      have hrest : (cs.dropWhile isSentPunct).length ≤ n := by
        have := (@List.dropWhile_sublist Char cs isSentPunct).length_le
        omega
      by_cases hc : isSentPunct c = true
      · by_cases hb : ((cs.dropWhile isSentPunct).isEmpty ||
            pyIsSpace ((cs.dropWhile isSentPunct).headD 'x')) = true
        · refine ⟨[], splitSent [] (cs.dropWhile isSentPunct), ?_, ?_⟩
          · rw [splitSent_cons_bdry [] c cs hc hb]
            simp
          · rw [splitSent_cons_bdry cur c cs hc hb]
            simp
        · have hbf : ((cs.dropWhile isSentPunct).isEmpty ||
              pyIsSpace ((cs.dropWhile isSentPunct).headD 'x')) = false := by
            simpa using hb
          obtain ⟨hd, tl, h1, h2⟩ := ih (cs.dropWhile isSentPunct) hrest
            ((c :: cs.takeWhile isSentPunct).reverse)
          obtain ⟨hd2, tl2, h1b, h2b⟩ := ih (cs.dropWhile isSentPunct) hrest
            ((c :: cs.takeWhile isSentPunct).reverse ++ cur)
          have hde : hd2 = hd ∧ tl2 = tl := by
            rw [h1] at h1b
            exact ⟨(List.cons.injEq _ _ _ _ ▸ h1b.symm).1, (List.cons.injEq _ _ _ _ ▸ h1b.symm).2⟩
          refine ⟨(c :: cs.takeWhile isSentPunct) ++ hd, tl, ?_, ?_⟩
          · rw [splitSent_cons_nobdry [] c cs hc hbf]
            simp only [List.append_nil]
            rw [h2]
            simp
          · rw [splitSent_cons_nobdry cur c cs hc hbf]
            rw [h2b, hde.1, hde.2]
            simp
      · have hcf : isSentPunct c = false := by simpa using hc
        obtain ⟨hd, tl, h1, h2⟩ := ih cs hcs [c]
        obtain ⟨hd2, tl2, h1b, h2b⟩ := ih cs hcs (c :: cur)
        have hde : hd2 = hd ∧ tl2 = tl := by
          rw [h1] at h1b
          exact ⟨(List.cons.injEq _ _ _ _ ▸ h1b.symm).1, (List.cons.injEq _ _ _ _ ▸ h1b.symm).2⟩
        refine ⟨c :: hd, tl, ?_, ?_⟩
        · rw [splitSent_cons_np [] c cs hcf, h2]
          simp
        · rw [splitSent_cons_np cur c cs hcf, h2b, hde.1, hde.2]
          simp

/-- Inversion for `SentSegSpec` along a cons segment list. -/
theorem sentSegSpec_inversion {t : List Char} {hd : List Char} {tl : List (List Char)}
    (h : SentSegSpec t (hd :: tl)) :
    (t = hd ∧ tl = [] ∧ segOkB hd = true) ∨
    (∃ r rest segs2, tl = segs2 ∧ t = hd ++ r ++ rest ∧ segOkB hd = true ∧ r ≠ [] ∧
      r.all isSentPunct = true ∧ (rest = [] ∨ pyIsSpace (rest.headD 'x') = true) ∧
      SentSegSpec rest segs2) := by
  cases h with
  | last s hs => exact Or.inl ⟨rfl, rfl, hs⟩
  | step s r rest segs hs h1 h2 h3 h4 =>
    exact Or.inr ⟨r, rest, tl, rfl, rfl, hs, h1, h2, h3, h4⟩

/-- The head character of a `dropWhile` result fails the predicate. -/
theorem dropWhile_head_false (p : Char → Bool) :
    ∀ (l : List Char) (d : Char) (ds : List Char), l.dropWhile p = d :: ds → p d = false := by
  intro l
  induction l with
  | nil => intro d ds h; simp at h
  | cons x xs ih =>
    intro d ds h
    rw [List.dropWhile_cons] at h
    by_cases hx : p x = true
    · rw [if_pos hx] at h
      exact ih d ds h
    · rw [if_neg hx] at h
      injection h with h1 _
      subst h1
      simpa using hx

/-- The first segment produced on text with a non-punctuation head starts with
that head character. -/
theorem splitSent_head_nonpunct (d : Char) (ds : List Char) (hdp : isSentPunct d = false) :
    ∃ h2 tl2, splitSent [] (d :: ds) = (d :: h2) :: tl2 := by
  rw [splitSent_cons_np [] d ds hdp]
  obtain ⟨h2, tl2, _, e2⟩ := splitSent_acc ds.length ds le_rfl [d]
  refine ⟨h2, tl2, ?_⟩
  rw [e2]
  simp

/-- The scanner `splitSent` satisfies the declarative sentence-splitting
contract: its output is a decomposition of the input into boundary-free
segments separated by punctuation runs followed by whitespace or the end. -/
theorem sentSegSpec_splitSent : ∀ (n : Nat) (t : List Char), t.length ≤ n →
    SentSegSpec t (splitSent [] t) := by
  intro n
  induction n with
  | zero =>
    intro t ht
    have ht0 : t = [] := by
      cases t with
      | nil => rfl
      | cons a as => simp at ht
    subst ht0
    rw [splitSent_nil]
    simpa using SentSegSpec.last [] (by decide)
  | succ n ih =>
    intro t ht
    cases t with
    | nil =>
      rw [splitSent_nil]
      simpa using SentSegSpec.last [] (by decide)
    | cons c cs =>
      have hcs : cs.length ≤ n := by
        simp only [List.length_cons] at ht
        omega
      have hrest : (cs.dropWhile isSentPunct).length ≤ n := by
        have := (@List.dropWhile_sublist Char cs isSentPunct).length_le
        omega
      by_cases hc : isSentPunct c = true
      · by_cases hb : ((cs.dropWhile isSentPunct).isEmpty ||
            pyIsSpace ((cs.dropWhile isSentPunct).headD 'x')) = true
        · rw [splitSent_cons_bdry [] c cs hc hb]
          simp only [List.reverse_nil]
          rw [show (c :: cs : List Char) =
            ([] ++ (c :: cs.takeWhile isSentPunct)) ++ cs.dropWhile isSentPunct from by
              simp [List.takeWhile_append_dropWhile]]
          refine SentSegSpec.step [] _ _ _ (by decide) (by simp)
            (by simp [hc, List.all_takeWhile]) ?_ (ih _ hrest)
          rcases Bool.or_eq_true_iff.mp hb with h | h
          · exact Or.inl (List.isEmpty_iff.mp h)
          · exact Or.inr h
        · have hbf : ((cs.dropWhile isSentPunct).isEmpty ||
              pyIsSpace ((cs.dropWhile isSentPunct).headD 'x')) = false := by
            simpa using hb
          have hor : (cs.dropWhile isSentPunct).isEmpty = false ∧
              pyIsSpace ((cs.dropWhile isSentPunct).headD 'x') = false := by
            constructor
            · cases hx : (cs.dropWhile isSentPunct).isEmpty with
              | false => rfl
              | true => rw [hx] at hbf; simp at hbf
            · cases hx : pyIsSpace ((cs.dropWhile isSentPunct).headD 'x') with
              | false => rfl
              | true => rw [hx] at hbf; simp at hbf
          obtain ⟨d, ds, hdd⟩ : ∃ d ds, cs.dropWhile isSentPunct = d :: ds := by
            cases hx : cs.dropWhile isSentPunct with
            | nil =>
              exfalso
              have := hor.1
              rw [hx] at this
              simp at this
            | cons d ds => exact ⟨d, ds, rfl⟩
          have hdp : isSentPunct d = false := dropWhile_head_false _ cs d ds hdd
          have hds : pyIsSpace d = false := by
            have := hor.2
            rw [hdd] at this
            simpa using this
          rw [splitSent_cons_nobdry [] c cs hc hbf]
          simp only [List.append_nil]
          obtain ⟨hd1, tl1, e1, e2⟩ := splitSent_acc n (cs.dropWhile isSentPunct) hrest
            ((c :: cs.takeWhile isSentPunct).reverse)
          rw [e2]
          simp only [List.reverse_reverse]
          have hIH := ih (cs.dropWhile isSentPunct) hrest
          rw [e1] at hIH
          obtain ⟨h2, tl2, e3⟩ := splitSent_head_nonpunct d ds hdp
          rw [← hdd] at e3
          rw [e1] at e3
          have hhd1 : hd1 = d :: h2 := by
            injection e3 with ha _
          rcases sentSegSpec_inversion hIH with ⟨hteq, htl, hseg⟩ |
            ⟨r2, rest2, segs2, htl, hteq, hseg, hr2ne, hr2all, hb2, hrest2⟩
          · subst htl
            rw [show (c :: cs : List Char) = (c :: cs.takeWhile isSentPunct) ++ hd1 from by
              conv_lhs => rw [show (c :: cs : List Char) =
                (c :: cs.takeWhile isSentPunct) ++ cs.dropWhile isSentPunct from by
                  simp [List.takeWhile_append_dropWhile]]
              rw [hteq]]
            apply SentSegSpec.last
            rw [hhd1]
            refine segOkB_punct_append _ (by simp [hc, List.all_takeWhile]) d h2 hds ?_
            rw [hhd1] at hseg
            exact hseg
          · subst htl
            rw [show (c :: cs : List Char) =
                ((c :: cs.takeWhile isSentPunct) ++ hd1) ++ r2 ++ rest2 from by
              conv_lhs => rw [show (c :: cs : List Char) =
                (c :: cs.takeWhile isSentPunct) ++ cs.dropWhile isSentPunct from by
                  simp [List.takeWhile_append_dropWhile]]
              rw [hteq]
              simp [List.append_assoc]]
            refine SentSegSpec.step _ _ _ _ ?_ hr2ne hr2all hb2 hrest2
            rw [hhd1]
            refine segOkB_punct_append _ (by simp [hc, List.all_takeWhile]) d h2 hds ?_
            rw [hhd1] at hseg
            exact hseg
      · have hcf : isSentPunct c = false := by simpa using hc
        rw [splitSent_cons_np [] c cs hcf]
        obtain ⟨hd1, tl1, e1, e2⟩ := splitSent_acc n cs hcs [c]
        rw [e2]
        have hrw : ([c].reverse ++ hd1) = c :: hd1 := by simp
        rw [hrw]
        have hIH := ih cs hcs
        rw [e1] at hIH
        rcases sentSegSpec_inversion hIH with ⟨hteq, htl, hseg⟩ |
          ⟨r2, rest2, segs2, htl, hteq, hseg, hr2ne, hr2all, hb2, hrest2⟩
        · subst htl
          rw [show (c :: cs : List Char) = c :: hd1 from by rw [hteq]]
          exact SentSegSpec.last _ (segOkB_cons_nonpunct hcf hseg)
        · subst htl
          rw [show (c :: cs : List Char) = (c :: hd1) ++ r2 ++ rest2 from by rw [hteq]; simp]
          exact SentSegSpec.step _ _ _ _ (segOkB_cons_nonpunct hcf hseg) hr2ne hr2all hb2 hrest2

/-- Claim C2: for every text, the sentence splitter realises the declarative
contract `SentSegSpec` — a run of `.`/`!`/`?` is a boundary exactly when
followed by whitespace or the end of the text — and `count_sentences` returns 1
on empty text and otherwise the number of non-blank segments of that
decomposition, floored at 1; moreover `count_sentences "Hi. Bye!" = 2`. -/
theorem c2_spec_conformance :
    (∀ text : String, SentSegSpec text.toList (splitSent [] text.toList) ∧
      count_sentences text = if text.toList = [] then 1
        else max 1 (((splitSent [] text.toList).filter
          (fun p => p.any (fun c => !pyIsSpace c))).length)) ∧
    count_sentences "" = 1 ∧ count_sentences "Hi. Bye!" = 2 := by
  refine ⟨fun text => ⟨sentSegSpec_splitSent text.toList.length _ le_rfl, rfl⟩, by decide, ?_⟩
  simp [count_sentences, splitSent, isSentPunct, pyIsSpace]

/-! ## Claim C7 (paragraph splitting semantics) -/

/-- All of a list satisfying `p` makes `takeWhile` the identity. -/
theorem takeWhile_eq_self_of_all (p : Char → Bool) :
    ∀ l : List Char, l.all p = true → l.takeWhile p = l := by
  intro l
  induction l with
  | nil => intro _; rfl
  | cons x l ih =>
    intro h
    simp only [List.all_cons, Bool.and_eq_true] at h
    rw [List.takeWhile_cons, if_pos h.1, ih h.2]

/-- `takeWhile` walks through an all-`p` block. -/
theorem takeWhile_append_of_all (p : Char → Bool) :
    ∀ a b : List Char, a.all p = true → (a ++ b).takeWhile p = a ++ b.takeWhile p := by
  intro a
  induction a with
  | nil => intro b _; simp
  | cons x a' ih =>
    intro b h
    simp only [List.all_cons, Bool.and_eq_true] at h
    simp only [List.cons_append, List.takeWhile_cons, if_pos h.1, ih b h.2]

/-- `takeWhile` stops inside a block that is not all-`p`. -/
theorem takeWhile_append_of_not_all (p : Char → Bool) :
    ∀ a b : List Char, a.all p = false → (a ++ b).takeWhile p = a.takeWhile p := by
  intro a
  induction a with
  | nil => intro b h; simp at h
  | cons x a' ih =>
    intro b h
    simp only [List.all_cons, Bool.and_eq_false_iff] at h
    simp only [List.cons_append, List.takeWhile_cons]
    rcases h with h | h
    · rw [if_neg (by simp [h]), if_neg (by simp [h])]
    · by_cases hx : p x = true
      · rw [if_pos hx, if_pos hx, ih b h]
      · rw [if_neg hx, if_neg hx]

/-- `takeWhile` of an all-`p` block followed by a failing head is the block. -/
theorem takeWhile_append_stop (p : Char → Bool) (a b : List Char) (ha : a.all p = true)
    (hb : b = [] ∨ p (b.headD 'x') = false) : (a ++ b).takeWhile p = a := by
  rw [takeWhile_append_of_all p a b ha]
  have hnil : b.takeWhile p = [] := by
    rcases hb with rfl | hb
    · rfl
    · cases b with
      | nil => rfl
      | cons d ds =>
        simp only [List.headD_cons] at hb
        rw [List.takeWhile_cons, if_neg (by simp [hb])]
  rw [hnil, List.append_nil]

/-- Members of `takeWhile` of a list are members of `takeWhile` of any
extension. -/
theorem mem_takeWhile_append (p : Char → Bool) (a b : List Char) (x : Char)
    (hx : x ∈ a.takeWhile p) : x ∈ (a ++ b).takeWhile p := by
  cases hall : a.all p with
  | true =>
    rw [takeWhile_append_of_all p a b hall]
    rw [takeWhile_eq_self_of_all p a hall] at hx
    exact List.mem_append_left _ hx
  | false =>
    rw [takeWhile_append_of_not_all p a b hall]
    exact hx

/-- No separator match starts inside `s`: every newline of `s` is followed by a
whitespace run (within `s`) containing no further newline — i.e. `s` contains
no infix of the form newline, whitespace, newline. -/
def noParaSepB : List Char → Bool
  | [] => true
  | c :: cs =>
    (if c = '\n' then (cs.takeWhile pyIsSpace).all (fun d => d != '\n') else true) &&
      noParaSepB cs

/-- The trailing whitespace run of `s` contains no newline (so no separator
match can start in `s` and run into what follows `s`). -/
def tailNoNlB (s : List Char) : Bool :=
  (s.reverse.takeWhile pyIsSpace).all (fun d => d != '\n')

/-- Declarative transcription of the paragraph-splitting contract of the spec:
`ParaSegSpec t segs` holds when `t` decomposes into the blocks `segs`
interleaved with separators, where every separator is a whitespace run of
length at least two that starts and ends with a newline (one or more blank
lines surrounded by line breaks, greedily extended to the last newline: the
text after the separator starts with a newline-free whitespace run), and no
block contains or abuts a blank-line separator of its own. -/
inductive ParaSegSpec : List Char → List (List Char) → Prop
  | last (s : List Char) : noParaSepB s = true → ParaSegSpec s [s]
  | step (s r rest : List Char) (segs : List (List Char)) :
      noParaSepB s = true → tailNoNlB s = true →
      2 ≤ r.length → r.all pyIsSpace = true →
      r.headD 'x' = '\n' → r.getLastD 'x' = '\n' →
      (rest.takeWhile pyIsSpace).all (fun d => d != '\n') = true →
      ParaSegSpec rest segs → ParaSegSpec (s ++ r ++ rest) (s :: segs)

/-- Branch equation: empty input. -/
theorem splitPara_nil (cur : List Char) : splitPara cur [] = [cur.reverse] := by
  rw [splitPara]

/-- Branch equation: a newline whose following whitespace run contains another
newline closes the current block. -/
theorem splitPara_cons_sep (cur cs : List Char) (hin : '\n' ∈ cs.takeWhile pyIsSpace) :
    splitPara cur ('\n' :: cs) = cur.reverse :: splitPara []
      (cs.drop ((cs.takeWhile pyIsSpace).length -
        ((cs.takeWhile pyIsSpace).reverse.takeWhile (fun d => d != '\n')).length)) := by
  rw [splitPara]
  rw [if_pos rfl, if_pos hin]

/-- Branch equation: a newline with no second newline in the following
whitespace run joins the current block. -/
theorem splitPara_cons_nl_nosep (cur cs : List Char) (hnin : ¬ '\n' ∈ cs.takeWhile pyIsSpace) :
    splitPara cur ('\n' :: cs) = splitPara ('\n' :: cur) cs := by
  rw [splitPara]
  rw [if_pos rfl, if_neg hnin]

/-- Branch equation: a non-newline character joins the current block. -/
theorem splitPara_cons_nonl (cur : List Char) (c : Char) (cs : List Char) (hc : ¬ c = '\n') :
    splitPara cur (c :: cs) = splitPara (c :: cur) cs := by
  rw [splitPara]
  rw [if_neg hc]

/-- The accumulator of `splitPara` only prepends (reversed) to the first
produced block; the result is never empty. -/
theorem splitPara_acc : ∀ (n : Nat) (t : List Char), t.length ≤ n → ∀ cur : List Char,
    ∃ hd tl, splitPara [] t = hd :: tl ∧ splitPara cur t = (cur.reverse ++ hd) :: tl := by
  intro n
  induction n with
  | zero =>
    intro t ht cur
    have ht0 : t = [] := by
      cases t with
      | nil => rfl
      | cons a as => simp at ht
    subst ht0
    exact ⟨[], [], by simp [splitPara_nil], by simp [splitPara_nil]⟩
  | succ n ih =>
    intro t ht cur
    cases t with
    | nil => exact ⟨[], [], by simp [splitPara_nil], by simp [splitPara_nil]⟩
    | cons c cs =>
      have hcs : cs.length ≤ n := by
        simp only [List.length_cons] at ht
        omega
      by_cases hc : c = '\n'
      · subst hc
        by_cases hin : '\n' ∈ cs.takeWhile pyIsSpace
        · refine ⟨[], splitPara [] (cs.drop ((cs.takeWhile pyIsSpace).length -
              ((cs.takeWhile pyIsSpace).reverse.takeWhile (fun d => d != '\n')).length)), ?_, ?_⟩
          · rw [splitPara_cons_sep [] cs hin]
            simp
          · rw [splitPara_cons_sep cur cs hin]
            simp
        · obtain ⟨hd, tl, h1, h2⟩ := ih cs hcs ['\n']
          obtain ⟨hd2, tl2, h1b, h2b⟩ := ih cs hcs ('\n' :: cur)
          have hde : hd2 = hd ∧ tl2 = tl := by
            rw [h1] at h1b
            exact ⟨(List.cons.injEq _ _ _ _ ▸ h1b.symm).1, (List.cons.injEq _ _ _ _ ▸ h1b.symm).2⟩
          refine ⟨'\n' :: hd, tl, ?_, ?_⟩
          · rw [splitPara_cons_nl_nosep [] cs hin, h2]
            simp
          · rw [splitPara_cons_nl_nosep cur cs hin, h2b, hde.1, hde.2]
            simp
      · obtain ⟨hd, tl, h1, h2⟩ := ih cs hcs [c]
        obtain ⟨hd2, tl2, h1b, h2b⟩ := ih cs hcs (c :: cur)
        have hde : hd2 = hd ∧ tl2 = tl := by
          rw [h1] at h1b
          exact ⟨(List.cons.injEq _ _ _ _ ▸ h1b.symm).1, (List.cons.injEq _ _ _ _ ▸ h1b.symm).2⟩
        refine ⟨c :: hd, tl, ?_, ?_⟩
        · rw [splitPara_cons_nonl [] c cs hc, h2]
          simp
        · rw [splitPara_cons_nonl cur c cs hc, h2b, hde.1, hde.2]
          simp

/-- Inversion for `ParaSegSpec` along a cons block list. -/
theorem paraSegSpec_inversion {t : List Char} {hd : List Char} {tl : List (List Char)}
    (h : ParaSegSpec t (hd :: tl)) :
    (t = hd ∧ tl = [] ∧ noParaSepB hd = true) ∨
    (∃ r rest segs2, tl = segs2 ∧ t = hd ++ r ++ rest ∧ noParaSepB hd = true ∧
      tailNoNlB hd = true ∧ 2 ≤ r.length ∧ r.all pyIsSpace = true ∧
      r.headD 'x' = '\n' ∧ r.getLastD 'x' = '\n' ∧
      (rest.takeWhile pyIsSpace).all (fun d => d != '\n') = true ∧
      ParaSegSpec rest segs2) := by
  cases h with
  | last s hs => exact Or.inl ⟨rfl, rfl, hs⟩
  | step s r rest segs hs h1 h2 h3 h4 h5 h6 h7 =>
    exact Or.inr ⟨r, rest, tl, rfl, rfl, hs, h1, h2, h3, h4, h5, h6, h7⟩

/-- Structure of a separator match: when the whitespace run after a newline
contains another newline, the remaining text splits as whitespace up to the
last newline of the run (the greedy match) followed by a newline-free
whitespace tail and the non-whitespace continuation. -/
theorem sep_split (cs : List Char) (hin : '\n' ∈ cs.takeWhile pyIsSpace) :
    ∃ A w z : List Char,
      cs = (A ++ ['\n']) ++ (w ++ z) ∧
      cs.drop ((cs.takeWhile pyIsSpace).length -
        ((cs.takeWhile pyIsSpace).reverse.takeWhile (fun d => d != '\n')).length) = w ++ z ∧
      (A ++ ['\n']).all pyIsSpace = true ∧
      w.all pyIsSpace = true ∧
      w.all (fun d => d != '\n') = true ∧
      (z = [] ∨ pyIsSpace (z.headD 'x') = false) := by
  have hall_u : (cs.takeWhile pyIsSpace).all pyIsSpace = true := List.all_takeWhile
  have hsplit : (cs.takeWhile pyIsSpace).reverse.takeWhile (fun d => d != '\n') ++
      (cs.takeWhile pyIsSpace).reverse.dropWhile (fun d => d != '\n') =
      (cs.takeWhile pyIsSpace).reverse :=
    List.takeWhile_append_dropWhile (fun d => d != '\n') (cs.takeWhile pyIsSpace).reverse
  have hdwne : (cs.takeWhile pyIsSpace).reverse.dropWhile (fun d => d != '\n') ≠ [] := by
    intro h0
    have hallp : ((cs.takeWhile pyIsSpace).reverse).all (fun d => d != '\n') = true := by
      rw [← hsplit, h0, List.append_nil]
      exact List.all_takeWhile
    have hmem : '\n' ∈ (cs.takeWhile pyIsSpace).reverse := by
      rw [List.mem_reverse]
      exact hin
    have := List.all_eq_true.mp hallp '\n' hmem
    simp at this
  obtain ⟨e, v, hev⟩ : ∃ e v, (cs.takeWhile pyIsSpace).reverse.dropWhile (fun d => d != '\n') =
      e :: v := by
    cases hdw2 : (cs.takeWhile pyIsSpace).reverse.dropWhile (fun d => d != '\n') with
    | nil => exact absurd hdw2 hdwne
    | cons e v => exact ⟨e, v, rfl⟩
  have he : e = '\n' := by
    have := dropWhile_head_false (fun d => d != '\n') (cs.takeWhile pyIsSpace).reverse e v hev
    simpa using this
  subst he
  have hurev : (cs.takeWhile pyIsSpace).reverse =
      (cs.takeWhile pyIsSpace).reverse.takeWhile (fun d => d != '\n') ++ '\n' :: v := by
    conv_lhs => rw [← hsplit]
    rw [hev]
  have hueq : cs.takeWhile pyIsSpace = v.reverse ++
      '\n' :: ((cs.takeWhile pyIsSpace).reverse.takeWhile (fun d => d != '\n')).reverse := by
    calc cs.takeWhile pyIsSpace = (cs.takeWhile pyIsSpace).reverse.reverse := by
          rw [List.reverse_reverse]
    _ = ((cs.takeWhile pyIsSpace).reverse.takeWhile (fun d => d != '\n') ++ '\n' :: v).reverse := by
          rw [← hurev]
    _ = ('\n' :: v).reverse ++
          ((cs.takeWhile pyIsSpace).reverse.takeWhile (fun d => d != '\n')).reverse := by
          rw [List.reverse_append]
    _ = (v.reverse ++ ['\n']) ++
          ((cs.takeWhile pyIsSpace).reverse.takeWhile (fun d => d != '\n')).reverse := by
          rw [List.reverse_cons]
    _ = v.reverse ++
          '\n' :: ((cs.takeWhile pyIsSpace).reverse.takeWhile (fun d => d != '\n')).reverse := by
          simp
  have hlen_u : (cs.takeWhile pyIsSpace).length =
      ((cs.takeWhile pyIsSpace).reverse.takeWhile (fun d => d != '\n')).length + 1 + v.length := by
    have := congrArg List.length hurev
    simp only [List.length_reverse, List.length_append, List.length_cons] at this
    omega
  have hk : (cs.takeWhile pyIsSpace).length -
      ((cs.takeWhile pyIsSpace).reverse.takeWhile (fun d => d != '\n')).length =
      (v.reverse ++ ['\n']).length := by
    simp only [List.length_append, List.length_reverse, List.length_cons, List.length_nil]
    omega
  have hcs_de : cs = (v.reverse ++ ['\n']) ++
      (((cs.takeWhile pyIsSpace).reverse.takeWhile (fun d => d != '\n')).reverse ++
        cs.dropWhile pyIsSpace) := by
    calc cs = cs.takeWhile pyIsSpace ++ cs.dropWhile pyIsSpace := by
          rw [List.takeWhile_append_dropWhile]
    _ = (v.reverse ++
          '\n' :: ((cs.takeWhile pyIsSpace).reverse.takeWhile (fun d => d != '\n')).reverse) ++
          cs.dropWhile pyIsSpace := by rw [← hueq]
    _ = _ := by simp
  have hall_decomp : (v.reverse ++ ['\n']).all pyIsSpace = true ∧
      (((cs.takeWhile pyIsSpace).reverse.takeWhile (fun d => d != '\n')).reverse).all
        pyIsSpace = true := by
    have h2 := hall_u
    rw [hueq] at h2
    simp only [List.all_append, List.all_cons, Bool.and_eq_true, List.all_reverse] at h2 ⊢
    simp only [List.all_nil, Bool.and_true]
    exact ⟨⟨h2.1, by decide⟩, h2.2.2⟩
  refine ⟨v.reverse,
    ((cs.takeWhile pyIsSpace).reverse.takeWhile (fun d => d != '\n')).reverse,
    cs.dropWhile pyIsSpace, hcs_de, ?_, hall_decomp.1, hall_decomp.2, ?_, ?_⟩
  · rw [hk]
    conv_lhs => rw [hcs_de]
    exact List.drop_left _ _
  · rw [List.all_reverse]
    exact List.all_takeWhile
  · cases hz : cs.dropWhile pyIsSpace with
    | nil => exact Or.inl rfl
    | cons d ds =>
      refine Or.inr ?_
      simp only [List.headD_cons]
      exact dropWhile_head_false pyIsSpace cs d ds hz

/-- Prepending a character to a block with no internal separator keeps it
separator-free, provided a prepended newline sees no newline in the block's
leading whitespace run. -/
theorem noParaSepB_cons {c : Char} {h : List Char}
    (hnl : c = '\n' → ((h.takeWhile pyIsSpace).all (fun d => d != '\n')) = true)
    (hh : noParaSepB h = true) : noParaSepB (c :: h) = true := by
  rw [noParaSepB]
  by_cases hc : c = '\n'
  · rw [if_pos hc, hnl hc, hh]
    rfl
  · rw [if_neg hc, hh]
    rfl

/-- Rebuilding step for the paragraph scanner: prepending a character that does
not start a separator match to the first block of a valid decomposition yields
a valid decomposition. -/
theorem para_cons_rebuild {c : Char} {cs hd1 : List Char} {tl1 : List (List Char)}
    (hclean : c = '\n' → ¬ '\n' ∈ cs.takeWhile pyIsSpace)
    (hIH : ParaSegSpec cs (hd1 :: tl1)) :
    ParaSegSpec (c :: cs) ((c :: hd1) :: tl1) := by
  rcases paraSegSpec_inversion hIH with ⟨hteq, htl, hsep⟩ |
    ⟨r2, rest2, segs2, htl, hteq, hsep, htail, hlen2, hall2, hhead2, hlast2, hlead2, hrest2⟩
  · subst htl
    have hnp : noParaSepB (c :: hd1) = true := by
      refine noParaSepB_cons ?_ hsep
      intro hc
      rw [List.all_eq_true]
      intro x hx
      have hxin : x ∈ cs.takeWhile pyIsSpace := by
        rw [hteq]
        exact hx
      simp only [bne_iff_ne, ne_eq]
      intro hxeq
      subst hxeq
      exact hclean hc hxin
    rw [show (c :: cs : List Char) = c :: hd1 from by rw [hteq]]
    exact ParaSegSpec.last _ hnp
  · subst htl
    have hteq' : cs = hd1 ++ (r2 ++ rest2) := by
      rw [hteq, List.append_assoc]
    have hnp : noParaSepB (c :: hd1) = true := by
      refine noParaSepB_cons ?_ hsep
      intro hc
      rw [List.all_eq_true]
      intro x hx
      have hxin : x ∈ cs.takeWhile pyIsSpace := by
        rw [hteq']
        exact mem_takeWhile_append pyIsSpace hd1 (r2 ++ rest2) x hx
      simp only [bne_iff_ne, ne_eq]
      intro hxeq
      subst hxeq
      exact hclean hc hxin
    have htailc : tailNoNlB (c :: hd1) = true := by
      unfold tailNoNlB
      rw [show (c :: hd1).reverse = hd1.reverse ++ [c] from by simp]
      cases hall : hd1.reverse.all pyIsSpace with
      | false =>
        rw [takeWhile_append_of_not_all _ _ _ hall]
        exact htail
      | true =>
        rw [takeWhile_append_of_all _ _ _ hall]
        simp only [List.all_append, Bool.and_eq_true]
        constructor
        · unfold tailNoNlB at htail
          rw [takeWhile_eq_self_of_all _ _ hall] at htail
          exact htail
        · by_cases hcw : pyIsSpace c = true
          · rw [List.takeWhile_cons, if_pos hcw]
            simp only [List.takeWhile_nil, List.all_cons, List.all_nil, Bool.and_true]
            by_cases hcn : c = '\n'
            · exfalso
              refine hclean hcn ?_
              have hd1ws : hd1.all pyIsSpace = true := by
                rw [← List.all_reverse]
                exact hall
              rw [hteq']
              rw [takeWhile_append_of_all _ _ _ hd1ws]
              apply List.mem_append_right
              obtain ⟨e, r2', hre⟩ : ∃ e r2', r2 = e :: r2' := by
                cases hr2 : r2 with
                | nil =>
                  exfalso
                  rw [hr2] at hlen2
                  simp at hlen2
                | cons e r2' => exact ⟨e, r2', rfl⟩
              have he : e = '\n' := by
                rw [hre] at hhead2
                simpa using hhead2
              rw [hre, he]
              rw [List.cons_append, List.takeWhile_cons, if_pos (by decide)]
              simp
            · simpa using hcn
          · rw [List.takeWhile_cons, if_neg hcw]
            simp
    rw [show (c :: cs : List Char) = (c :: hd1) ++ r2 ++ rest2 from by rw [hteq]; simp]
    exact ParaSegSpec.step _ _ _ _ hnp htailc hlen2 hall2 hhead2 hlast2 hlead2 hrest2

/-- The scanner `splitPara` satisfies the declarative paragraph-splitting
contract: its output decomposes the input into blank-line-free blocks separated
by runs of one or more blank lines. -/
theorem paraSegSpec_splitPara : ∀ (n : Nat) (t : List Char), t.length ≤ n →
    ParaSegSpec t (splitPara [] t) := by
  intro n
  induction n with
  | zero =>
    intro t ht
    have ht0 : t = [] := by
      cases t with
      | nil => rfl
      | cons a as => simp at ht
    subst ht0
    rw [splitPara_nil]
    simpa using ParaSegSpec.last [] (by decide)
  | succ n ih =>
    intro t ht
    cases t with
    | nil =>
      rw [splitPara_nil]
      simpa using ParaSegSpec.last [] (by decide)
    | cons c cs =>
      have hcs : cs.length ≤ n := by
        simp only [List.length_cons] at ht
        omega
      by_cases hc : c = '\n'
      · subst hc
        by_cases hin : '\n' ∈ cs.takeWhile pyIsSpace
        · rw [splitPara_cons_sep [] cs hin]
          simp only [List.reverse_nil]
          obtain ⟨A, w, z, hcs_de, hdrop, hallA, hallw, hwp, hz⟩ := sep_split cs hin
          rw [hdrop]
          have hrlen : ((w ++ z) : List Char).length ≤ n := by
            rw [← hdrop]
            have := List.length_drop ((cs.takeWhile pyIsSpace).length -
              ((cs.takeWhile pyIsSpace).reverse.takeWhile (fun d => d != '\n')).length) cs
            omega
          rw [show ('\n' :: cs : List Char) = [] ++ ('\n' :: (A ++ ['\n'])) ++ (w ++ z) from by
            rw [hcs_de]
            simp]
          refine ParaSegSpec.step [] _ _ _ rfl (by decide) ?_ ?_ ?_ ?_ ?_ (ih _ hrlen)
          · simp only [List.length_cons, List.length_append, List.length_nil]
            omega
          · simp only [List.all_cons, Bool.and_eq_true]
            exact ⟨by decide, hallA⟩
          · simp
          · rw [show ('\n' :: (A ++ ['\n']) : List Char) = ('\n' :: A) ++ ['\n'] from by simp]
            rw [List.getLastD_concat]
          · rw [takeWhile_append_stop pyIsSpace w z hallw hz]
            exact hwp
        · rw [splitPara_cons_nl_nosep [] cs hin]
          obtain ⟨hd1, tl1, e1, e2⟩ := splitPara_acc n cs hcs ['\n']
          rw [e2]
          have hrw : (['\n'].reverse ++ hd1) = '\n' :: hd1 := by simp
          rw [hrw]
          have hIH := ih cs hcs
          rw [e1] at hIH
          exact para_cons_rebuild (fun _ => hin) hIH
      · rw [splitPara_cons_nonl [] c cs hc]
        obtain ⟨hd1, tl1, e1, e2⟩ := splitPara_acc n cs hcs [c]
        rw [e2]
        have hrw : ([c].reverse ++ hd1) = c :: hd1 := by simp
        rw [hrw]
        have hIH := ih cs hcs
        rw [e1] at hIH
        exact para_cons_rebuild (fun hcc => absurd hcc hc) hIH

/-- Claim C7: for every text, the paragraph splitter applied to the trimmed
text realises the declarative contract `ParaSegSpec` — blocks separated by runs
of one or more blank lines — and `count_paragraphs` returns 1 on empty text and
otherwise the number of non-blank blocks floored at 1; the two collapse
examples hold. -/
theorem c7_spec_conformance :
    (∀ text : String, ParaSegSpec (pyStrip text.toList) (splitPara [] (pyStrip text.toList)) ∧
      count_paragraphs text = if text.toList = [] then 1
        else max 1 (((splitPara [] (pyStrip text.toList)).filter
          (fun p => p.any (fun c => !pyIsSpace c))).length)) ∧
    count_paragraphs "" = 1 ∧
    count_paragraphs "A\n\nB\n\nC" = 3 ∧ count_paragraphs "A\n\n\n\nB" = 2 := by
  refine ⟨fun text => ⟨paraSegSpec_splitPara (pyStrip text.toList).length _ le_rfl, rfl⟩,
    by decide, ?_, ?_⟩
  · simp [count_paragraphs, splitPara, pyStrip, pyIsSpace]
  · simp [count_paragraphs, splitPara, pyStrip, pyIsSpace]
